import Mathlib

/-!
Verification development for the ECDSA signature core in `src/signature.c`.

The signature core manipulates GMP arbitrary-precision integers (`mpz_t`),
modelled here as `ℤ`.  `mpz_mod` always returns a non-negative result, which
matches `Int.emod` (`%` below).  The curve-point module, the number-theory
module and the randomness module are external collaborators of the core
(their sources are not part of the repository slice); they are modelled from
the specification's collaborator contracts, see the doc comments below.
-/

/-- Modelled from the spec: the Domain Parameters and Curve Point
collaborators (`domain_parameters.h`, `point.h` are not under `src/`).
The spec treats the curve as a black box: points support addition and scalar
multiplication under the domain's group law, the base point `G` generates a
subgroup of prime order `n`, a point exposes an affine x-coordinate and an
is-infinity flag.  We model the cyclic subgroup generated by `G`: a point is
represented by its reduced discrete logarithm in `[0, n)` (so `G` itself is
`1 % n` and the point at infinity is `0`); the affine x-coordinate is an
unconstrained non-negative function packaged with the domain, since the spec
leaves the underlying field entirely abstract. -/
structure CurveModel where
  n : ℤ
  xcoord : ℤ → ℕ

/-- Modelled from the spec: a point's is-infinity flag.  In the reduced
discrete-logarithm representation the point at infinity (the group identity)
is `0`. -/
def point_infinity (P : ℤ) : Bool := P == 0

/-- Modelled from the spec: `point_multiplication(result, scalar, point,
domain)` computes scalar·point under the domain's group law.  In the
discrete-logarithm representation of the order-`n` cyclic subgroup this is
multiplication of the exponent, reduced. -/
def point_multiplication (C : CurveModel) (scalar P : ℤ) : ℤ :=
  (scalar * P) % C.n

/-- Modelled from the spec: `point_addition(result, a, b, domain)` computes
the group-law sum; addition of exponents, reduced. -/
def point_addition (C : CurveModel) (P Q : ℤ) : ℤ :=
  (P + Q) % C.n

/-- Modelled from the spec: the domain's base point `G` (its own discrete
logarithm is `1`, reduced). -/
def curve_G (C : CurveModel) : ℤ := 1 % C.n

/-- Modelled from the spec: the Number-Theory collaborator's
`number_theory_inverse(result, value, modulus)` computes the modular
multiplicative inverse, and is undefined/error when
`gcd(value, modulus) ≠ 1`.  We return the least inverse in `[0, modulus)`
when one exists and `0` (an impossible inverse value) otherwise. -/
def number_theory_inverse (value modulus : ℤ) : ℤ :=
  match (List.range modulus.toNat).find? (fun w : ℕ => (value * (w : ℤ)) % modulus == 1) with
  | some w => (w : ℤ)
  | none => 0

/-- Fuel-driven bit counter: number of binary digits of `x` (`0` for `x = 0`),
provided `x ≤ fuel`. -/
def bitlen_go : ℕ → ℕ → ℕ
  | 0, _ => 0
  | fuel + 1, x => if x = 0 then 0 else bitlen_go fuel (x / 2) + 1

/-- GMP's `mpz_sizeinbase(x, 2)`: the number of binary digits of `x` with the
sign ignored, and `1` for `x = 0`. -/
def mpz_sizeinbase2 (x : ℤ) : ℕ :=
  if x.natAbs = 0 then 1 else bitlen_go x.natAbs x.natAbs

/-- A signature value: the two arbitrary-precision integers `r` and `s`
(`struct signature_s`). -/
structure Signature where
  r : ℤ
  s : ℤ
deriving DecidableEq

/-- `signature_set_ui`: set a signature from two unsigned long ints. -/
def signature_set_ui (r s : ℕ) : Signature := ⟨(r : ℤ), (s : ℤ)⟩

/-- `signature_cmp`: true iff both components are equal. -/
def signature_cmp (sig1 sig2 : Signature) : Bool :=
  sig1.r == sig2.r && sig1.s == sig2.s

/-- `signature_generate_key`: the public key is `private_key · G`. -/
def signature_generate_key (C : CurveModel) (private_key : ℤ) : ℤ :=
  point_multiplication C private_key (curve_G C)

/-- Modelled from the spec: the Randomness collaborator (`random.h` is not
under `src/`) yields a value uniformly distributed in `[0, bound)`;
`signature_sign` invokes it as `mpz_urandomm(k, r_state, t1)` with
`t1 = n - 2`, so the possible nonce draws of one signing attempt are exactly
the integers in `[0, n - 3]`. -/
def signature_sign_nonce_possible (n k : ℤ) : Prop := 0 ≤ k ∧ k < n - 2

/-- The `r` component computed by one signing attempt with nonce `k`:
`r = x mod n` where `x` is the affine x-coordinate of `k·G`
(`signature_sign`, lines 100–106). -/
def signature_sign_r (C : CurveModel) (k : ℤ) : ℤ :=
  (C.xcoord (point_multiplication C k (curve_G C)) : ℤ) % C.n

/-- The `s` component computed by one signing attempt with nonce `k`
(`signature_sign`, lines 111–118): `t1 = k⁻¹ mod n`; `t2 = d·r`;
`t3 = e + t2`; `t2' = t3 mod n`; `t3' = t2'·t1`; `s = t3' mod n`. -/
def signature_sign_s (C : CurveModel) (message private_key k : ℤ) : ℤ :=
  let r := signature_sign_r C k
  let t1 := number_theory_inverse k C.n
  let t2 := private_key * r
  let t3 := message + t2
  let t2' := t3 % C.n
  let t3' := t2' * t1
  t3' % C.n

/-- The retry loop of `signature_sign` (label `signature_sign_start`),
parameterised by the stream of nonce draws the Randomness collaborator
produces: an attempt whose `r` is zero restarts with the next draw, the
first attempt with `r ≠ 0` sets the signature. -/
def signature_sign_loop (C : CurveModel) (message private_key : ℤ) :
    List ℤ → Option Signature
  | [] => none
  | k :: ks =>
    if signature_sign_r C k = 0 then signature_sign_loop C message private_key ks
    else some ⟨signature_sign_r C k, signature_sign_s C message private_key k⟩

/-- Outcome of a call to `signature_sign`: the fatal assertion fired, or the
retry loop exhausted the supplied draws (the code would keep looping), or a
signature was produced. -/
inductive SignOutcome where
  | aborted : SignOutcome
  | looping : SignOutcome
  | signed : Signature → SignOutcome
deriving DecidableEq

/-- `signature_sign`: asserts
`mpz_sizeinbase(message, 2) <= mpz_sizeinbase(n, 2)` (aborting the process on
violation), then runs the retry loop on the nonce draws. -/
def signature_sign_run (C : CurveModel) (message private_key : ℤ)
    (draws : List ℤ) : SignOutcome :=
  if mpz_sizeinbase2 C.n < mpz_sizeinbase2 message then SignOutcome.aborted
  else
    match signature_sign_loop C message private_key draws with
    | some sig => SignOutcome.signed sig
    | none => SignOutcome.looping

/-- The range-validation step of `signature_verify` (lines 139–146): the
early `return false` is taken iff
`mpz_cmp(r,1) < 0 && mpz_cmp(n,r) <= 0 && mpz_cmp(s,1) < 0 && mpz_cmp(n,s) <= 0`. -/
def signature_verify_range_reject (n r s : ℤ) : Bool :=
  decide (r < 1 ∧ n ≤ r ∧ s < 1 ∧ n ≤ s)

/-- `signature_verify` (lines 134–192): range step, then `w = s⁻¹ mod n`,
`u1 = (message mod n)·w mod n`, `u2 = r·w mod n`, `x = u1·G + u2·Q`, and the
result is `mpz_cmp(r, x->x) == 0 && !x->infinity`. -/
def signature_verify (C : CurveModel) (message : ℤ) (sig : Signature)
    (public_key : ℤ) : Bool :=
  if signature_verify_range_reject C.n sig.r sig.s then false
  else
    let w := number_theory_inverse sig.s C.n
    let tt2 := message % C.n
    let u1 := (tt2 * w) % C.n
    let u2 := (sig.r * w) % C.n
    let x := point_addition C (point_multiplication C u1 (curve_G C))
        (point_multiplication C u2 public_key)
    (sig.r == (C.xcoord x : ℤ)) && !(point_infinity x)

/-- The acceptance computation exactly as §4.3 of the specification words it
(steps 2–6): `w = s⁻¹ mod n`, `u1 = (message mod n)·w mod n`,
`u2 = r·w mod n`, `X = u1·G + u2·Q`, accept iff `X` is not the point at
infinity and the affine x-coordinate of `X` equals `r` exactly (integer
equality, not reduced modulo `n` again). -/
def signature_verify_spec (C : CurveModel) (message : ℤ) (sig : Signature)
    (public_key : ℤ) : Bool :=
  let w := number_theory_inverse sig.s C.n
  let u1 := ((message % C.n) * w) % C.n
  let u2 := (sig.r * w) % C.n
  let X := point_addition C (point_multiplication C u1 (curve_G C))
      (point_multiplication C u2 public_key)
  !(point_infinity X) && (sig.r == (C.xcoord X : ℤ))

/-- A valid domain in the sense of the spec: the group order `n` is prime
(stated in an executable, kernel-decidable form). -/
def valid_domain (C : CurveModel) : Prop :=
  2 ≤ C.n ∧ ∀ m : ℕ, m < C.n.toNat → 2 ≤ m → C.n.toNat % m ≠ 0

instance (C : CurveModel) : Decidable (valid_domain C) := by
  unfold valid_domain; infer_instance

/-- A concrete toy domain: group order `n = 7`, and the affine x-coordinate
of the point with reduced discrete logarithm `m` is `m` itself. -/
def Cex : CurveModel := ⟨7, fun x => x.toNat⟩

instance (n k : ℤ) : Decidable (signature_sign_nonce_possible n k) := by
  unfold signature_sign_nonce_possible; infer_instance

/-! ### Helper lemmas -/

lemma number_theory_inverse_spec (v n : ℤ)
    (h : ∃ w : ℕ, w < n.toNat ∧ (v * (w : ℤ)) % n = 1) :
    (v * number_theory_inverse v n) % n = 1 := by
  obtain ⟨w0, hw0, hw1⟩ := h
  unfold number_theory_inverse
  cases hfind : (List.range n.toNat).find? (fun w : ℕ => (v * (w : ℤ)) % n == 1) with
  | none =>
    exfalso
    have hnone := List.find?_eq_none.mp hfind w0 (List.mem_range.mpr hw0)
    simp only [beq_iff_eq] at hnone
    exact hnone hw1
  | some w =>
    have := List.find?_some hfind
    simpa using this

lemma number_theory_inverse_mul_of_ne_zero (v n : ℤ)
    (h : number_theory_inverse v n ≠ 0) :
    (v * number_theory_inverse v n) % n = 1 := by
  unfold number_theory_inverse at h ⊢
  cases hfind : (List.range n.toNat).find? (fun w : ℕ => (v * (w : ℤ)) % n == 1) with
  | none => rw [hfind] at h; simp at h
  | some w =>
    have := List.find?_some hfind
    simpa using this

lemma valid_domain_prime (C : CurveModel) (h : valid_domain C) :
    Nat.Prime C.n.toNat := by
  obtain ⟨h2, hnd⟩ := h
  rw [Nat.prime_def_lt]
  refine ⟨by omega, ?_⟩
  intro m hm hdvd
  by_contra hne
  rcases Nat.lt_or_ge m 2 with hlt | hge
  · interval_cases m
    · exact absurd (Nat.eq_zero_of_zero_dvd hdvd) (by omega)
    · exact hne rfl
  · exact hnd m hm hge (Nat.dvd_iff_mod_eq_zero.mp hdvd)

lemma exists_inverse_of_prime {n s : ℤ} (hp : Nat.Prime n.toNat)
    (h0 : 0 < s) (hlt : s < n) :
    ∃ w : ℕ, w < n.toNat ∧ (s * (w : ℤ)) % n = 1 := by
  have hn2 : 2 ≤ n.toNat := hp.two_le
  have hnpos : (0 : ℤ) < n := h0.trans hlt
  have hncast : ((n.toNat : ℤ)) = n := Int.toNat_of_nonneg hnpos.le
  have hscast : ((s.toNat : ℤ)) = s := Int.toNat_of_nonneg h0.le
  have hs0 : 0 < s.toNat := by omega
  have hsn : s.toNat < n.toNat := by omega
  have hcop : Nat.Coprime s.toNat n.toNat := by
    have hnd : ¬ n.toNat ∣ s.toNat := Nat.not_dvd_of_pos_of_lt hs0 hsn
    exact Nat.Coprime.symm ((Nat.Prime.coprime_iff_not_dvd hp).mpr hnd)
  obtain ⟨m, hm⟩ :=
    Nat.exists_mul_emod_eq_one_of_coprime hcop (by omega)
  refine ⟨m % n.toNat, Nat.mod_lt _ (by omega), ?_⟩
  have hmod : s.toNat * (m % n.toNat) % n.toNat = 1 := by
    rw [Nat.mul_mod, Nat.mod_mod_of_dvd _ dvd_rfl, ← Nat.mul_mod]
    exact hm
  calc s * ((m % n.toNat : ℕ) : ℤ) % n
      = ((s.toNat * (m % n.toNat) : ℕ) : ℤ) % ((n.toNat : ℤ)) := by
        push_cast [hscast, hncast]; ring_nf
    _ = ((s.toNat * (m % n.toNat) % n.toNat : ℕ) : ℤ) := by
        rw [Int.natCast_mod]
    _ = 1 := by rw [hmod]; rfl

lemma range_reject_false (n r s : ℤ) (hn : 1 ≤ n) :
    signature_verify_range_reject n r s = false := by
  unfold signature_verify_range_reject
  simp only [decide_eq_false_iff_not]
  rintro ⟨h1, h2, _, _⟩
  omega

lemma verify_eq_spec_aux (C : CurveModel) (e : ℤ) (sig : Signature)
    (pk : ℤ) (hn : 1 ≤ C.n) :
    signature_verify C e sig pk = signature_verify_spec C e sig pk := by
  unfold signature_verify signature_verify_spec
  rw [range_reject_false _ _ _ hn]
  simp [Bool.and_comm]

/-! ### Claim theorems -/

/-- C4: for every domain with group order `n ≥ 1` and every signature
`(r, s)`, the range-check rejection branch of `signature_verify` is
unreachable: the code's conjunction `r < 1 && n ≤ r && s < 1 && n ≤ s` is
unsatisfiable, so `verify` never returns `false` from its range-validation
step. -/
theorem signature_verify_range_reject_unreachable (n r s : ℤ) (hn : 1 ≤ n) :
    signature_verify_range_reject n r s = false :=
  range_reject_false n r s hn

theorem signature_verify_range_reject_unreachable_witness :
    1 ≤ (7 : ℤ) ∧ signature_verify_range_reject 7 0 9 = false :=
  ⟨by decide, signature_verify_range_reject_unreachable 7 0 9 (by decide)⟩

/-- C5: on a domain with group order `n ≥ 1`, `signature_verify` accepts
iff, with `w = s⁻¹ mod n`, `u1 = (message mod n)·w mod n`, `u2 = r·w mod n`
and `X = u1·G + u2·Q`, the point `X` is not the point at infinity and the
affine x-coordinate of `X` equals `r` by exact integer equality (not reduced
modulo `n` again) — i.e. `signature_verify` agrees with the specification's
acceptance computation `signature_verify_spec`. -/
theorem signature_verify_eq_verify_spec (C : CurveModel) (e : ℤ)
    (sig : Signature) (pk : ℤ) (hn : 1 ≤ C.n) :
    signature_verify C e sig pk = signature_verify_spec C e sig pk :=
  verify_eq_spec_aux C e sig pk hn

theorem signature_verify_eq_verify_spec_witness :
    1 ≤ Cex.n ∧
    signature_verify Cex 5 ⟨2, 9⟩ (signature_generate_key Cex 3) =
      signature_verify_spec Cex 5 ⟨2, 9⟩ (signature_generate_key Cex 3) :=
  ⟨by decide,
   signature_verify_eq_verify_spec Cex 5 ⟨2, 9⟩ (signature_generate_key Cex 3)
     (by decide)⟩

/-- C2 (counterexample): on the toy domain, the valid signature `(2, 2)` of
message `5` under private key `3` still verifies after replacing `s = 2` by
the out-of-range `s = 9 ∉ [1, n−1]`; `signature_verify` does not reject an
out-of-range component. -/
theorem signature_verify_accepts_out_of_range_s :
    valid_domain Cex ∧ ¬ (1 ≤ (9 : ℤ) ∧ (9 : ℤ) ≤ Cex.n - 1) ∧
    signature_verify Cex 5 ⟨2, 9⟩ (signature_generate_key Cex 3) = true := by
  decide

/-- C2 (amended): `signature_verify` does not reject out-of-range `r`/`s`
before the equation check — for any domain with `n ≥ 1` its verdict is
unchanged when `s` is replaced by the out-of-range `s + n`. -/
theorem signature_verify_shift_s_by_n (C : CurveModel) (e r s pk : ℤ)
    (hn : 1 ≤ C.n) :
    signature_verify C e ⟨r, s + C.n⟩ pk = signature_verify C e ⟨r, s⟩ pk := by
  rw [verify_eq_spec_aux _ _ _ _ hn, verify_eq_spec_aux _ _ _ _ hn]
  have hinv : number_theory_inverse (s + C.n) C.n = number_theory_inverse s C.n := by
    unfold number_theory_inverse
    have hfun : (fun w : ℕ => ((s + C.n) * (w : ℤ)) % C.n == 1) =
        (fun w : ℕ => (s * (w : ℤ)) % C.n == 1) := by
      funext w
      have h2 : (s + C.n) * (w : ℤ) % C.n = s * (w : ℤ) % C.n := by
        rw [add_mul, Int.add_mul_emod_self_left]
      rw [h2]
    rw [hfun]
  simp only [signature_verify_spec]
  rw [hinv]

theorem signature_verify_shift_s_by_n_witness :
    1 ≤ Cex.n ∧
    signature_verify Cex 5 ⟨2, 2 + Cex.n⟩ 3 = signature_verify Cex 5 ⟨2, 2⟩ 3 :=
  ⟨by decide, signature_verify_shift_s_by_n Cex 5 2 2 3 (by decide)⟩

/-- C3: the nonce sampler of `signature_sign` calls `mpz_urandomm` with
bound `n − 2`, whose possible outputs are `[0, n − 3]`; on the toy domain
(`n = 7`) the draw `k = 0` is possible, yet `0` does not lie in the claimed
range `[1, n − 2]`. -/
theorem signature_sign_nonce_zero_possible :
    signature_sign_nonce_possible Cex.n 0 ∧
    ¬ (1 ≤ (0 : ℤ) ∧ (0 : ℤ) ≤ Cex.n - 2) := by decide

/-- C6: the second signature component follows the exact source sequence
`t1 = k⁻¹ mod n`; `t2 = d·r`; `t3 = e + t2`; `t2' = t3 mod n`;
`t3' = t2'·t1`; `s = t3' mod n`, and the returned `s` equals
`k⁻¹ · (e + d·r) mod n`. -/
theorem signature_sign_s_closed_form (C : CurveModel) (e d k : ℤ) :
    signature_sign_s C e d k =
      ((e + d * signature_sign_r C k) % C.n * number_theory_inverse k C.n) % C.n
    ∧ signature_sign_s C e d k =
      (number_theory_inverse k C.n * (e + d * signature_sign_r C k)) % C.n := by
  constructor
  · rfl
  · show ((e + d * signature_sign_r C k) % C.n * number_theory_inverse k C.n) % C.n = _
    rw [Int.mul_emod, Int.emod_emod_of_dvd _ dvd_rfl, ← Int.mul_emod,
      mul_comm (e + d * signature_sign_r C k) (number_theory_inverse k C.n)]

/-- C7: the retry loop of `signature_sign` discards an attempt whose
`r = x_R mod n` is zero and restarts with the next nonce draw; consequently
every signature the loop returns has `r ∈ [1, n−1]` (never `0`). -/
theorem signature_sign_loop_r_in_range (C : CurveModel) (e d : ℤ)
    (hn : 0 < C.n) :
    (∀ k ks, signature_sign_r C k = 0 →
        signature_sign_loop C e d (k :: ks) = signature_sign_loop C e d ks) ∧
    ∀ draws sig, signature_sign_loop C e d draws = some sig →
        1 ≤ sig.r ∧ sig.r ≤ C.n - 1 := by
  constructor
  · intro k ks h
    show (if signature_sign_r C k = 0 then signature_sign_loop C e d ks
        else some ⟨signature_sign_r C k, signature_sign_s C e d k⟩) =
      signature_sign_loop C e d ks
    rw [if_pos h]
  · intro draws
    induction draws with
    | nil => intro sig h; simp [signature_sign_loop] at h
    | cons k ks ih =>
      intro sig h
      unfold signature_sign_loop at h
      by_cases hk : signature_sign_r C k = 0
      · rw [if_pos hk] at h
        exact ih sig h
      · rw [if_neg hk] at h
        have h' := Option.some.inj h
        rw [← h']
        show 1 ≤ signature_sign_r C k ∧ signature_sign_r C k ≤ C.n - 1
        have hr0 : 0 ≤ signature_sign_r C k := Int.emod_nonneg _ (by omega)
        have hrlt : signature_sign_r C k < C.n := Int.emod_lt_of_pos _ hn
        omega

theorem signature_sign_loop_r_in_range_witness :
    signature_sign_loop Cex 5 3 [2] = some ⟨2, 2⟩ ∧
    (1 ≤ (Signature.mk 2 2).r ∧ (Signature.mk 2 2).r ≤ Cex.n - 1) :=
  ⟨by decide,
   (signature_sign_loop_r_in_range Cex 5 3 (by decide)).2 [2] ⟨2, 2⟩ (by decide)⟩

/-- C8: `signature_sign` does not restart when `s = 0`: on the toy domain
with message `1`, private key `3` and the single nonce draw `k = 2`
(a possible draw with `k⁻¹·(e + d·r) ≡ 0 mod n`), the sign run completes on
that first attempt and returns a signature whose `s` component is `0`. -/
theorem signature_sign_no_restart_on_zero_s :
    valid_domain Cex ∧ (1 ≤ (3 : ℤ) ∧ (3 : ℤ) ≤ Cex.n - 1) ∧
    mpz_sizeinbase2 1 ≤ mpz_sizeinbase2 Cex.n ∧
    signature_sign_nonce_possible Cex.n 2 ∧
    (number_theory_inverse 2 Cex.n * (1 + 3 * signature_sign_r Cex 2)) % Cex.n = 0 ∧
    signature_sign_run Cex 1 3 [2] =
      SignOutcome.signed ⟨signature_sign_r Cex 2, 0⟩ := by decide

/-- C9: verifying a signature whose components were set via
`signature_set_ui(sig, 0, 0)` returns `false` for every message, public key
and domain. -/
theorem signature_verify_zero_signature_false (C : CurveModel) (e pk : ℤ) :
    signature_verify C e (signature_set_ui 0 0) pk = false := by
  rcases lt_or_le C.n 1 with hn | hn
  · have hrej : signature_verify_range_reject C.n (signature_set_ui 0 0).r
        (signature_set_ui 0 0).s = true := by
      unfold signature_verify_range_reject signature_set_ui
      simp only [decide_eq_true_eq, Nat.cast_zero]
      omega
    unfold signature_verify
    rw [hrej]
    simp
  · rw [verify_eq_spec_aux _ _ _ _ hn]
    have hw : number_theory_inverse 0 C.n = 0 := by
      unfold number_theory_inverse
      have hfind : (List.range C.n.toNat).find?
          (fun w : ℕ => ((0 : ℤ) * (w : ℤ)) % C.n == 1) = none := by
        apply List.find?_eq_none.mpr
        intro x _
        simp
      rw [hfind]
    simp [signature_verify_spec, signature_set_ui, hw, point_multiplication,
      point_addition, point_infinity, curve_G, Int.zero_emod]

/-- C10: the precondition of `signature_sign` is enforced by a fatal
assertion: the run aborts iff `bitlength(message) > bitlength(n)`, and under
the precondition `bitlength(message) ≤ bitlength(n)` the assertion never
fires. -/
theorem signature_sign_abort_iff_oversized (C : CurveModel) (e d : ℤ)
    (draws : List ℤ) :
    (signature_sign_run C e d draws = SignOutcome.aborted ↔
      mpz_sizeinbase2 C.n < mpz_sizeinbase2 e) ∧
    (mpz_sizeinbase2 e ≤ mpz_sizeinbase2 C.n →
      signature_sign_run C e d draws ≠ SignOutcome.aborted) := by
  unfold signature_sign_run
  by_cases h : mpz_sizeinbase2 C.n < mpz_sizeinbase2 e
  · rw [if_pos h]
    exact ⟨⟨fun _ => h, fun _ => rfl⟩, fun hle => absurd h (by omega)⟩
  · rw [if_neg h]
    have hne : (match signature_sign_loop C e d draws with
        | some sig => SignOutcome.signed sig
        | none => SignOutcome.looping) ≠ SignOutcome.aborted := by
      cases signature_sign_loop C e d draws <;> simp
    exact ⟨⟨fun hc => absurd hc hne, fun hlt => absurd hlt h⟩, fun _ => hne⟩

theorem signature_sign_abort_iff_oversized_witness :
    mpz_sizeinbase2 5 ≤ mpz_sizeinbase2 Cex.n ∧
    signature_sign_run Cex 5 3 [2] ≠ SignOutcome.aborted :=
  ⟨by decide, (signature_sign_abort_iff_oversized Cex 5 3 [2]).2 (by decide)⟩

/-! ### The sign/verify roundtrip (C1) -/

lemma X_exponent_eq_k (n e d k r s t1 w : ℤ)
    (hn2 : 2 ≤ n) (hk0 : 0 ≤ k) (hkn : k < n)
    (hs_def : s = ((e + d * r) % n * t1) % n)
    (hkt1 : (k * t1) % n = 1)
    (hw : (s * w) % n = 1) :
    (((((e % n) * w) % n) * (1 % n)) % n +
      ((((r * w) % n)) * ((d * (1 % n)) % n)) % n) % n = k := by
  have h1n : (1 : ℤ) % n = 1 := Int.emod_eq_of_lt (by norm_num) (by omega)
  rw [h1n, mul_one, mul_one]
  have hself : ∀ a : ℤ, a % n ≡ a [ZMOD n] := fun a => Int.emod_emod_of_dvd a dvd_rfl
  have hnne : n ≠ 0 := by omega
  have hmod2 : k * t1 ≡ 1 [ZMOD n] := by
    show (k * t1) % n = 1 % n
    rw [hkt1, h1n]
  have hmod3 : s * w ≡ 1 [ZMOD n] := by
    show (s * w) % n = 1 % n
    rw [hw, h1n]
  have hmod1 : s ≡ (e + d * r) * t1 [ZMOD n] := by
    rw [hs_def]
    calc ((e + d * r) % n * t1) % n
        ≡ (e + d * r) % n * t1 [ZMOD n] := hself _
      _ ≡ (e + d * r) * t1 [ZMOD n] := (hself (e + d * r)).mul_right t1
  have hmod2' : t1 * k ≡ 1 [ZMOD n] := by rw [mul_comm]; exact hmod2
  have hsk : s * k ≡ e + d * r [ZMOD n] := by
    calc s * k ≡ ((e + d * r) * t1) * k [ZMOD n] := hmod1.mul_right k
      _ = (e + d * r) * (t1 * k) := by ring
      _ ≡ (e + d * r) * 1 [ZMOD n] := hmod2'.mul_left _
      _ = e + d * r := mul_one _
  have hfinal : (e % n) * w + r * w * d ≡ k [ZMOD n] := by
    calc (e % n) * w + r * w * d
        ≡ e * w + r * w * d [ZMOD n] := ((hself e).mul_right w).add_right _
      _ = w * (e + d * r) := by ring
      _ ≡ w * (s * k) [ZMOD n] := Int.ModEq.symm (hsk.mul_left w)
      _ = (s * w) * k := by ring
      _ ≡ 1 * k [ZMOD n] := hmod3.mul_right k
      _ = k := one_mul k
  have hbig : ((((e % n) * w) % n) % n + (((r * w) % n) * (d % n)) % n) % n
      ≡ k [ZMOD n] := by
    have t1' : (((e % n) * w) % n) % n ≡ (e % n) * w [ZMOD n] :=
      Int.ModEq.trans (hself _) (hself _)
    have t2' : (((r * w) % n) * (d % n)) % n ≡ r * w * d [ZMOD n] := by
      calc (((r * w) % n) * (d % n)) % n
          ≡ ((r * w) % n) * (d % n) [ZMOD n] := hself _
        _ ≡ (r * w) * d [ZMOD n] := (hself (r * w)).mul (hself d)
    calc ((((e % n) * w) % n) % n + (((r * w) % n) * (d % n)) % n) % n
        ≡ (((e % n) * w) % n) % n + (((r * w) % n) * (d % n)) % n [ZMOD n] := hself _
      _ ≡ (e % n) * w + r * w * d [ZMOD n] := Int.ModEq.add t1' t2'
      _ ≡ k [ZMOD n] := hfinal
  have heq : (((((e % n) * w) % n) % n + (((r * w) % n) * (d % n)) % n) % n) % n
      = k % n := hbig
  rw [Int.emod_emod_of_dvd _ dvd_rfl, Int.emod_eq_of_lt hk0 hkn] at heq
  exact heq

lemma verify_spec_true_of (C : CurveModel) (e : ℤ) (sig : Signature) (pk X : ℤ)
    (hXdef : X = point_addition C
      (point_multiplication C
        (((e % C.n) * number_theory_inverse sig.s C.n) % C.n) (curve_G C))
      (point_multiplication C
        ((sig.r * number_theory_inverse sig.s C.n) % C.n) pk))
    (hinf : point_infinity X = false)
    (hxc : sig.r = (C.xcoord X : ℤ)) :
    signature_verify_spec C e sig pk = true := by
  show (!(point_infinity (point_addition C
      (point_multiplication C
        (((e % C.n) * number_theory_inverse sig.s C.n) % C.n) (curve_G C))
      (point_multiplication C
        ((sig.r * number_theory_inverse sig.s C.n) % C.n) pk))) &&
    (sig.r == (C.xcoord (point_addition C
      (point_multiplication C
        (((e % C.n) * number_theory_inverse sig.s C.n) % C.n) (curve_G C))
      (point_multiplication C
        ((sig.r * number_theory_inverse sig.s C.n) % C.n) pk)) : ℤ))) = true
  rw [← hXdef, hinf, hxc]
  simp

/-- C1 (amended): on a valid domain (prime group order), for a private key
`d ∈ [1, n−1]`, a digest `e` with `bitlength(e) ≤ bitlength(n)` and a nonce
draw `k` accepted by the signing retry loop (`r ≠ 0`), verification of the
produced signature against the generated public key succeeds — provided,
additionally, that the produced `s` is nonzero and that the affine
x-coordinate of `k·G` is below `n` (so that `r` equals it exactly). -/
theorem signature_sign_verify_roundtrip (C : CurveModel) (d e k : ℤ)
    (hdom : valid_domain C)
    (hd : 1 ≤ d ∧ d ≤ C.n - 1)
    (he : mpz_sizeinbase2 e ≤ mpz_sizeinbase2 C.n)
    (hk : signature_sign_nonce_possible C.n k)
    (hr : signature_sign_r C k ≠ 0)
    (hs : signature_sign_s C e d k ≠ 0)
    (hx : ((C.xcoord (point_multiplication C k (curve_G C)) : ℤ)) < C.n) :
    signature_verify C e ⟨signature_sign_r C k, signature_sign_s C e d k⟩
      (signature_generate_key C d) = true := by
  have hp : Nat.Prime C.n.toNat := valid_domain_prime C hdom
  have hn2 : 2 ≤ C.n := hdom.1
  obtain ⟨hk0, hkn⟩ := hk
  have hnpos : (0 : ℤ) < C.n := by omega
  have hnne : C.n ≠ 0 := by omega
  have ht1ne : number_theory_inverse k C.n ≠ 0 := by
    intro h0
    apply hs
    show ((e + d * signature_sign_r C k) % C.n * number_theory_inverse k C.n) % C.n = 0
    rw [h0, mul_zero, Int.zero_emod]
  have hkt1 : (k * number_theory_inverse k C.n) % C.n = 1 :=
    number_theory_inverse_mul_of_ne_zero _ _ ht1ne
  have hkne : k ≠ 0 := by
    intro h0
    rw [h0, zero_mul, Int.zero_emod] at hkt1
    norm_num at hkt1
  have hs0 : (0 : ℤ) ≤ signature_sign_s C e d k := Int.emod_nonneg _ hnne
  have hslt : signature_sign_s C e d k < C.n := Int.emod_lt_of_pos _ hnpos
  have hspos : (0 : ℤ) < signature_sign_s C e d k :=
    lt_of_le_of_ne hs0 fun h => hs h.symm
  have hw : (signature_sign_s C e d k *
      number_theory_inverse (signature_sign_s C e d k) C.n) % C.n = 1 :=
    number_theory_inverse_spec _ _ (exists_inverse_of_prime hp hspos hslt)
  have hkG : point_multiplication C k (curve_G C) = k := by
    unfold point_multiplication curve_G
    have h1n : (1 : ℤ) % C.n = 1 := Int.emod_eq_of_lt (by norm_num) (by omega)
    rw [h1n, mul_one]
    exact Int.emod_eq_of_lt hk0 (by omega)
  have hrx : signature_sign_r C k
      = (C.xcoord (point_multiplication C k (curve_G C)) : ℤ) := by
    show ((C.xcoord (point_multiplication C k (curve_G C)) : ℤ)) % C.n = _
    exact Int.emod_eq_of_lt (Int.natCast_nonneg _) hx
  have hX : point_addition C
      (point_multiplication C
        (((e % C.n) * number_theory_inverse (signature_sign_s C e d k) C.n) % C.n)
        (curve_G C))
      (point_multiplication C
        ((signature_sign_r C k *
          number_theory_inverse (signature_sign_s C e d k) C.n) % C.n)
        (signature_generate_key C d)) = k := by
    exact X_exponent_eq_k C.n e d k (signature_sign_r C k) (signature_sign_s C e d k)
      (number_theory_inverse k C.n) (number_theory_inverse (signature_sign_s C e d k) C.n)
      hn2 hk0 (by omega) rfl hkt1 hw
  rw [verify_eq_spec_aux _ _ _ _ (by omega : (1 : ℤ) ≤ C.n)]
  refine verify_spec_true_of C e _ _ k hX.symm ?_ ?_
  · simp [point_infinity, hkne]
  · show signature_sign_r C k = (C.xcoord k : ℤ)
    rw [hrx, hkG]

theorem signature_sign_verify_roundtrip_witness :
    valid_domain Cex ∧
    signature_verify Cex 5 ⟨signature_sign_r Cex 2, signature_sign_s Cex 5 3 2⟩
      (signature_generate_key Cex 3) = true :=
  ⟨by decide,
   signature_sign_verify_roundtrip Cex 3 5 2 (by decide) (by decide) (by decide)
     (by decide) (by decide) (by decide) (by decide)⟩

/-- C1 (counterexample): on the toy domain with message `1`, private key `3`
and the accepted nonce draw `k = 2`, signing yields `s = 0`
(`e + d·r = 1 + 3·2 ≡ 0 mod 7`) and verification of the produced signature
against the generated public key returns `false`, although the domain, key,
digest and nonce all satisfy the claim's hypotheses. -/
theorem signature_sign_verify_roundtrip_counterexample :
    valid_domain Cex ∧ (1 ≤ (3 : ℤ) ∧ (3 : ℤ) ≤ Cex.n - 1) ∧
    mpz_sizeinbase2 1 ≤ mpz_sizeinbase2 Cex.n ∧
    signature_sign_nonce_possible Cex.n 2 ∧ signature_sign_r Cex 2 ≠ 0 ∧
    signature_verify Cex 1 ⟨signature_sign_r Cex 2, signature_sign_s Cex 1 3 2⟩
      (signature_generate_key Cex 3) = false := by decide
